import Mathlib

/-!
Verification of the gopher-vision `.gdat` decode pipeline (`src/gdat.py`).

The Python source is shallowly embedded: byte strings become `List ℕ`
(each element a byte value), Python floats become exact rationals `ℚ`,
`Fraction` becomes `ℚ`, and code that can raise becomes `Except String`
or `Option`.  Machine-integer casts (`numpy.int16`) are modelled with
explicit truncation toward zero and wrap-around modulo 2^16.
-/

-- Batteries marks the arithmetic of `Rat` `@[irreducible]`, which prevents
-- `decide`/`rfl` from evaluating the embedded functions on concrete inputs.
-- Restore the definitional behaviour of those operations.
set_option allowUnsafeReducibility true
attribute [semireducible] Rat.add Rat.mul Rat.inv Rat.sub Rat.ofScientific

namespace Gdat

/-- Byte value of the packet start delimiter `0x7E` (`START` in the source). -/
def START : ℕ := 126

/-- Byte value of the escape byte `0x7D` (`ESC` in the source). -/
def ESC : ℕ := 125

/-- `MIN_PACKET_LENGTH` constant from the source. -/
def MIN_PACKET_LENGTH : ℕ := 9

/-- Tail loop of `escape`: every `0x7D`/`0x7E` byte is replaced by
`0x7D (b XOR 0x20)`; all other bytes are copied. -/
def escapeTail : List ℕ → List ℕ
  | [] => []
  | b :: r =>
    if b = ESC ∨ b = START then ESC :: (b ^^^ 32) :: escapeTail r
    else b :: escapeTail r

/-- `escape(packet)` from the source: the first byte is replaced by the
start delimiter unconditionally (`p = START`, loop over `packet[1:]`). -/
def escape (packet : List ℕ) : List ℕ := START :: escapeTail packet.tail

/-- `unescape(packet)` from the source: `0x7D` consumes the next byte and
XORs it with `0x20`; a trailing lone `0x7D` is dropped (the `break`). -/
def unescape : List ℕ → List ℕ
  | [] => []
  | b :: rest =>
    if b = ESC then
      match rest with
      | [] => []
      | c :: rest' => (c ^^^ 32) :: unescape rest'
    else b :: unescape rest

/-- `(sum).to_bytes(2)[-1]` from `checksum`: the low byte of a 2-byte
big-endian encoding.  `int.to_bytes` raises `OverflowError` when the sum
does not fit in 2 bytes, modelled by `none`. -/
def toBytes2Last (n : ℕ) : Option ℕ :=
  if n < 65536 then some (n % 256) else none

/-- `checksum(packet)` from the source: sums all bytes but the last and
compares the low byte of the 2-byte encoding with the last byte.
`none` models the uncaught `OverflowError` from `to_bytes(2)`. -/
def checksum (packet : List ℕ) : Option Bool :=
  (toBytes2Last packet.dropLast.sum).map (fun low => low = packet.getLastD 0)

/-- `bytes.split(START)`: split a byte string on every occurrence of the
delimiter byte, keeping empty parts (Python `bytes.split` semantics). -/
def splitOnByte (sep : ℕ) : List ℕ → List (List ℕ)
  | [] => [[]]
  | b :: rest =>
    match splitOnByte sep rest with
    | [] => [[b]]
    | h :: t => if b = sep then [] :: h :: t else (b :: h) :: t

/-- `int.from_bytes(..)` with big-endian byte order. -/
def beNat (l : List ℕ) : ℕ := l.foldl (fun acc b => acc * 256 + b) 0

example : unescape (escape (START :: [1, 125, 126, 200])) = START :: [1, 125, 126, 200] := by
  decide

example : splitOnByte 126 [126, 1, 2, 126, 126, 3] = [[], [1, 2], [], [3]] := by decide

example : checksum [126, 0, 0, 0, 0, 0, 1, 5, 132] = some true := by decide

/-- One entry of the parameter registry (`parameters[id]` in the source):
channel name, unit, and the `struct` wire format, modelled by its payload
byte size together with the decoded numeric value of a payload
(`float(struct.unpack(format, data)[0])`, exact rational here). -/
structure Param where
  name : String
  unit : String
  size : ℕ
  dec : List ℕ → ℚ

/-- The `ch['data']` sub-dictionary of a channel (fields start as `None`). -/
structure ChData where
  t_raw : Option (List ℕ)
  v_raw : Option (List ℚ)
  t_int : Option (List ℚ)
  v_int : Option (List ℚ)
  v_enc : Option (List ℤ)
  deriving DecidableEq

/-- A channel dictionary as built by `parse`. -/
structure Channel where
  id : ℕ
  name : String
  unit : String
  shift : ℤ
  scalar : ℤ
  divisor : ℤ
  offset : ℤ
  sample_rate : ℤ
  points : List (ℕ × ℚ)
  data : ChData
  deriving DecidableEq

/-- The fresh channel record `parse` creates for a registry entry. -/
def initChannel (id : ℕ) (p : Param) : Channel :=
  { id := id, name := p.name, unit := p.unit,
    shift := 0, scalar := 0, divisor := 0, offset := 0,
    sample_rate := 0, points := [],
    data := { t_raw := none, v_raw := none, t_int := none, v_int := none,
              v_enc := none } }

/-- Outcome of `decode_packets`' per-candidate processing: the three
`continue` branches (all counted by the single `errors` counter in the
source) and the success branch carrying `(id, ts, value)`. -/
inductive PacketKind where
  | tooShort : PacketKind
  | badChecksum : PacketKind
  | decodeFail : PacketKind
  | valid (id ts : ℕ) (v : ℚ) : PacketKind
  deriving DecidableEq

/-- The body of the `for p in packets` loop in `decode_packets`, up to the
channel append: prepend the delimiter, unescape, check the length
(`len(p) < MIN_PACKET_LENGTH - 1`), extract fields, verify the checksum
(`Except.error` models the uncaught `OverflowError` from `to_bytes(2)`),
and decode the payload (`decodeFail` covers the `try/except`: unknown id
or a payload length not matching the struct format). -/
def classifyPacket (params : List (ℕ × Param)) (part : List ℕ) :
    Except String PacketKind :=
  let p := unescape (START :: part)
  if p.length < MIN_PACKET_LENGTH - 1 then .ok .tooShort
  else
    let ts := beNat ((p.drop 1).take 4)
    let id := beNat ((p.drop 5).take 2)
    let data := (p.drop 7).dropLast
    match checksum p with
    | none => .error "OverflowError: int too big to convert"
    | some ok =>
      if !ok then .ok .badChecksum
      else
        match params.lookup id with
        | none => .ok .decodeFail
        | some prm =>
          if data.length = prm.size then .ok (.valid id ts (prm.dec data))
          else .ok .decodeFail

/-- `channels[id]['points'].append((ts, value))`: the append is outside the
`try`, so a missing channel key would raise `KeyError` (modelled by
`Except.error`; unreachable from `parse`, whose channel map shares the
registry's keys). -/
def addPointTo (chans : List (ℕ × Channel)) (id ts : ℕ) (v : ℚ) :
    Except String (List (ℕ × Channel)) :=
  if (chans.lookup id).isSome then
    .ok (chans.map (fun jc =>
      if jc.1 = id then (jc.1, { jc.2 with points := jc.2.points ++ [(ts, v)] })
      else jc))
  else .error "KeyError"

/-- The `for p in packets` loop of `decode_packets`, threading the channel
map and the `errors` counter. -/
def decodeLoop (params : List (ℕ × Param)) :
    List (ℕ × Channel) → ℕ → List (List ℕ) →
    Except String (List (ℕ × Channel) × ℕ)
  | chans, errs, [] => .ok (chans, errs)
  | chans, errs, part :: rest =>
    match classifyPacket params part with
    | .error e => .error e
    | .ok (.valid id ts v) =>
      match addPointTo chans id ts v with
      | .error e => .error e
      | .ok chans' => decodeLoop params chans' errs rest
    | .ok _ => decodeLoop params chans (errs + 1) rest

/-- `decode_packets(bytes, channels, parameters)` from the source: split on
the delimiter and process every candidate; returns the updated channels,
the number of candidates (`len(packets)`), and the error count. -/
def decode_packets (bytes : List ℕ) (chans : List (ℕ × Channel))
    (params : List (ℕ × Param)) :
    Except String (List (ℕ × Channel) × ℕ × ℕ) :=
  let parts := splitOnByte START bytes
  match decodeLoop params chans 0 parts with
  | .error e => .error e
  | .ok (chans', errs) => .ok (chans', parts.length, errs)

/-- Python's built-in `round`: round half to even (banker's rounding). -/
def pyRound (q : ℚ) : ℤ :=
  let f := ⌊q⌋
  let r := q - f
  if r < 1/2 then f
  else if 1/2 < r then f + 1
  else if Even f then f else f + 1

/-- Truncation toward zero, the behaviour of `numpy`'s float-to-integer
cast for in-range values. -/
def ratTrunc (q : ℚ) : ℤ := if 0 ≤ q then ⌊q⌋ else ⌈q⌉

/-- Conversion of an integer to `numpy.int16`: two's-complement
wrap-around modulo 2^16 (the x86 behaviour of the cast). -/
def toInt16 (n : ℤ) : ℤ := (n + 32768) % 65536 - 32768

/-- `Fraction(p, q)`: normalised rational with positive denominator. -/
def mkFrac (p q : ℤ) : ℚ := (p : ℚ) / (q : ℚ)

/-- The `while True` loop of `Fraction.limit_denominator` (CPython),
specialised to `max_denominator = 2**15 - 1` as `get_scalars` calls it.
`fuel` bounds the recursion; `d` strictly decreases each iteration, so the
fuel supplied by `limit_denominator` can never run out, and the `d = 0`
guard is unreachable for fractions in lowest terms with denominator
`> 32767` (both fallbacks return the current convergent). -/
def limitDenLoop (D : ℤ) : ℕ → ℤ → ℤ → ℤ → ℤ → ℤ → ℤ → ℚ
  | 0, _, _, p1, q1, _, _ => mkFrac p1 q1
  | fuel + 1, p0, q0, p1, q1, n, d =>
    if d = 0 then mkFrac p1 q1
    else
      let a := Int.fdiv n d
      let q2 := q0 + a * q1
      if 32767 < q2 then
        let k := Int.fdiv (32767 - q0) q1
        if 2 * d * (q0 + k * q1) ≤ D then mkFrac p1 q1
        else mkFrac (p0 + k * p1) (q0 + k * q1)
      else limitDenLoop D fuel p1 q1 (p0 + a * p1) q2 d (n - a * d)

/-- `Fraction(x).limit_denominator(2**15 - 1)` from CPython: returns `x`
itself when its denominator is already within the bound, otherwise walks
the continued-fraction convergents.  The first loop iteration always has
`q2 = 1 ≤ 32767`, so it is unrolled here before entering `limitDenLoop`. -/
def limit_denominator (x : ℚ) : ℚ :=
  if (x.den : ℤ) ≤ 32767 then x
  else
    let n : ℤ := x.num
    let d : ℤ := (x.den : ℤ)
    let a := Int.fdiv n d
    limitDenLoop (x.den : ℤ) (x.den + 2) 1 0 a 1 d (n - a * d)

/-- The `for shift in range(10, -10, -1)` loop of `get_scalars`.  The two
`break`s become `.ok`; falling through all shifts reaches the `for/else`
`raise`, modelled by `.error`.  Note that on the adjustment path the new
`scalar` is `round(scalar * ((2^15-1)/scalar))`, exactly `2^15 - 1` in
rational arithmetic. -/
def getScalarsGo (absMax : ℚ) : List ℤ → Except String (ℤ × ℤ × ℤ)
  | [] => .error "failed to find scalars"
  | shift :: rest =>
    let scale := absMax / (2 ^ 15 - 1) / (10 : ℚ) ^ (-shift)
    let f := limit_denominator scale
    let scalar : ℤ := f.num
    let divisor : ℤ := (f.den : ℤ)
    if scalar = 0 then getScalarsGo absMax rest
    else if -2 ^ 15 ≤ scalar ∧ scalar ≤ 2 ^ 15 - 1 then .ok (shift, scalar, divisor)
    else
      let adj : ℚ := (2 ^ 15 - 1 : ℚ) / (scalar : ℚ)
      let scalar' := pyRound ((scalar : ℚ) * adj)
      let divisor' := pyRound ((divisor : ℚ) * adj)
      if (-2 ^ 15 ≤ divisor' ∧ divisor' ≤ 2 ^ 15 - 1) ∧ divisor' ≠ 0 then
        let encMax := absMax / (10 : ℚ) ^ (-shift) / (scalar' : ℚ) * (divisor' : ℚ)
        let err := (((scalar' : ℚ) / (divisor' : ℚ)) - scale) / scale
        if encMax ≤ 2 ^ 15 - 1 ∧ err ≤ 1/10 then .ok (shift, scalar', divisor')
        else getScalarsGo absMax rest
      else getScalarsGo absMax rest

/-- `get_scalars(abs_max)` from the source: find `(shift, scalar, divisor)`
with `value = encoded_value * 10^-shift * scalar / divisor`.  `.error`
models the uncaught `Exception` raised when no shift works. -/
def get_scalars (absMax : ℚ) : Except String (ℤ × ℤ × ℤ) :=
  if absMax = 0 then .ok (0, 1, 1)
  else getScalarsGo absMax ((List.range 20).map (fun i => 10 - (i : ℤ)))

/-- Stable insertion of a point into a timestamp-sorted list: the new
point goes after every point with a key less than or equal to its own. -/
def insertPoint (p : ℕ × ℚ) : List (ℕ × ℚ) → List (ℕ × ℚ)
  | [] => [p]
  | q :: rest => if q.1 ≤ p.1 then q :: insertPoint p rest else p :: q :: rest

/-- `ch['points'].sort(key=lambda pt: pt[0])`: stable sort by timestamp
(insertion sort, which computes the same list as any stable sort). -/
def sortPoints (pts : List (ℕ × ℚ)) : List (ℕ × ℚ) :=
  pts.foldl (fun acc p => insertPoint p acc) []

/-- The sorted raw timestamps `t_raw` of a channel. -/
def tRawOf (pts : List (ℕ × ℚ)) : List ℕ := (sortPoints pts).map Prod.fst

/-- `t_raw[-1]`, the last (largest) raw timestamp. -/
def tLastOf (pts : List (ℕ × ℚ)) : ℕ := (tRawOf pts).getLastD 0

/-- `np.linspace(0, stop, num)`: `num` evenly spaced samples from `0` to
`stop` inclusive; a single sample is just the start point `[0]`. -/
def linspace (stop : ℚ) (num : ℕ) : List ℚ :=
  if num = 1 then [0]
  else (List.range num).map (fun i : ℕ => stop * (i : ℚ) / ((num : ℚ) - 1))

/-- `np.interp(x, xp, fp)` for one query point over sorted sample points:
clamp outside the sample range, linear interpolation between neighbours. -/
def interpPts : List (ℕ × ℚ) → ℚ → ℚ
  | [], _ => 0
  | [(_, f)], _ => f
  | (x1, f1) :: (x2, f2) :: rest, x =>
    if x ≤ (x1 : ℚ) then f1
    else if x ≤ (x2 : ℚ) then
      if (x2 : ℚ) = (x1 : ℚ) then f2
      else f1 + (f2 - f1) * (x - (x1 : ℚ)) / ((x2 : ℚ) - (x1 : ℚ))
    else interpPts ((x2, f2) :: rest) x

/-- The per-channel body of the interpolation loop in `parse`: sort the
points, split timestamps and values, build the uniform grid and the
interpolated values, and derive
`sample_rate = round(len(v_int) / (t_int[-1] / 1000))`.  When
`t_int[-1]` is zero (single sample, or all timestamps zero) that division
blows up and `round` raises, modelled by `.error`; channels with no
points are left untouched. -/
def interpChannel (ch : Channel) : Except String Channel :=
  if ch.points = [] then .ok ch
  else
    let sorted := sortPoints ch.points
    let tRaw := sorted.map Prod.fst
    let vRaw := sorted.map Prod.snd
    let n := tRaw.length
    let tInt := linspace (tRaw.getLastD 0 : ℚ) n
    let vInt := tInt.map (interpPts sorted)
    let tIntLast := tInt.getLastD 0
    if tIntLast = 0 then .error "OverflowError: cannot convert float infinity to integer"
    else
      .ok { ch with
        sample_rate := pyRound ((n : ℚ) / (tIntLast / 1000)),
        data := { ch.data with
          t_raw := some tRaw, v_raw := some vRaw,
          t_int := some tInt, v_int := some vInt } }

/-- The `for ch in channels.values()` interpolation pass of `parse`. -/
def interpAll : List (ℕ × Channel) → Except String (List (ℕ × Channel))
  | [] => .ok []
  | (i, ch) :: rest =>
    match interpChannel ch with
    | .error e => .error e
    | .ok ch' =>
      match interpAll rest with
      | .error e => .error e
      | .ok rest' => .ok ((i, ch') :: rest')

/-- `parse(bytes, parameters)` from the source: build one channel per
registry entry, run `decode_packets`, then interpolate every non-empty
channel.  `.error` models an uncaught exception escaping `parse`. -/
def parse (bytes : List ℕ) (params : List (ℕ × Param)) :
    Except String (List (ℕ × Channel)) :=
  let chans := params.map (fun ip => (ip.1, initChannel ip.1 ip.2))
  match decode_packets bytes chans params with
  | .error e => .error e
  | .ok (chans', _, _) => interpAll chans'

/-- `max(v.max(), v.min(), key=abs)` from `encode_channel`: the value of
largest magnitude; Python's `max` keeps the first argument on ties. -/
def absMaxOf (l : List ℚ) : ℚ :=
  let mx := l.foldl max (l.headD 0)
  let mn := l.foldl min (l.headD 0)
  if |mx| < |mn| then mn else mx

/-- The per-value encoding `v / 10**-shift / scalar * divisor` from
`encode_channel`, followed by the `numpy.int16` cast. -/
def encodeValue (sh sc dv : ℤ) (v : ℚ) : ℤ :=
  toInt16 (ratTrunc (v / (10 : ℚ) ^ (-sh) / (sc : ℚ) * (dv : ℚ)))

/-- The inverse transform `v_enc * 10**-shift * scalar / divisor` used in
`plot` to recover values from the encoded representation. -/
def dequantize (sh sc dv : ℤ) (e : ℤ) : ℚ :=
  (e : ℚ) * (10 : ℚ) ^ (-sh) * (sc : ℚ) / (dv : ℚ)

/-- `encode_channel(ch)` from the source.  The second component records a
raised exception: `get_scalars` raises before any field of the channel is
assigned, so on failure the channel is returned unmodified and the error
escapes to the caller (nothing in the source catches it). -/
def encode_channel (ch : Channel) : Channel × Option String :=
  match ch.data.v_enc with
  | some _ => (ch, none)
  | none =>
    match ch.data.v_int with
    | none => ({ ch with data := { ch.data with v_enc := some [] } }, none)
    | some vs =>
      match get_scalars (absMaxOf vs) with
      | .error e => (ch, some e)
      | .ok (sh, sc, dv) =>
        ({ ch with
            shift := sh,
            scalar := sc,
            divisor := dv,
            data := { ch.data with v_enc := some (vs.map (encodeValue sh sc dv)) } },
         none)

/-- Modelled from the spec (§4.5 Resampler step selection), for comparison
with the source: most frequent consecutive timestamp difference with ties
broken toward the smallest value. -/
def modeSmallest (l : List ℕ) : ℕ :=
  l.foldl (fun best d =>
    if l.count d > l.count best ∨ (l.count d = l.count best ∧ d < best) then d
    else best) (l.headD 0)

/-- Modelled from the spec: increase the step by 1 ms until it evenly
divides 1000 ms (fuel-bounded; 1000 always divides 1000). -/
def bumpToDivisorOf1000 : ℕ → ℕ → ℕ
  | 0, s => s
  | fuel + 1, s => if s ∣ 1000 ∧ s ≠ 0 then s else bumpToDivisorOf1000 fuel (s + 1)

/-- Modelled from the spec (§4.5): the resampling step the specification
claims the code computes — mode of consecutive sorted-timestamp
differences (ties smallest), 100 ms for a single-sample channel, capped
at 100 ms, then bumped until it divides 1000 ms. -/
def specResampleStep (tRaw : List ℕ) : ℕ :=
  if tRaw.length ≤ 1 then bumpToDivisorOf1000 1001 100
  else
    let diffs := (tRaw.zip tRaw.tail).map (fun p => p.2 - p.1)
    bumpToDivisorOf1000 1001 (min (modeSmallest diffs) 100)

instance {ε α : Type} [DecidableEq ε] [DecidableEq α] : DecidableEq (Except ε α) := fun a b =>
  match a, b with
  | .error e, .error f => if h : e = f then .isTrue (by rw [h]) else .isFalse (by simp [h])
  | .ok x, .ok y => if h : x = y then .isTrue (by rw [h]) else .isFalse (by simp [h])
  | .error _, .ok _ => .isFalse (by simp)
  | .ok _, .error _ => .isFalse (by simp)

/-! ### Escaping round-trip -/

lemma unescape_escapeTail (t : List ℕ) : unescape (escapeTail t) = t := by
  induction t with
  | nil => rfl
  | cons b r ih =>
    rw [escapeTail]
    by_cases h : b = ESC ∨ b = START
    · rw [if_pos h]
      have hxor : (b ^^^ 32) ^^^ 32 = b := by
        rw [Nat.xor_assoc, Nat.xor_self, Nat.xor_zero]
      show ((b ^^^ 32) ^^^ 32) :: unescape (escapeTail r) = b :: r
      rw [hxor, ih]
    · rw [if_neg h]
      have hb : ¬(b = ESC) := fun hb => h (Or.inl hb)
      unfold unescape
      rw [if_neg hb, ih]

/-- C6: counterexample — the claim quantifies over all byte sequences, but
`escape` overwrites the first byte with the delimiter, so the round trip
fails on the one-byte sequence `[0x00]` (it returns `[0x7E]`). -/
theorem unescape_escape_not_id : unescape (escape [0]) ≠ [0] := by decide

/-- C6 (amended): for every byte sequence that begins with the start
delimiter `0x7E` — the only sequences `escape` is ever applied to —
unescaping the escaped form returns the original sequence. -/
theorem unescape_escape_of_delimited (t : List ℕ) :
    unescape (escape (START :: t)) = START :: t := by
  show unescape (START :: escapeTail t) = START :: t
  unfold unescape
  rw [if_neg (by decide : ¬(START = ESC)), unescape_escapeTail]

/-! ### All-zero channels (C10) -/

lemma left_le_foldl_max : ∀ (l : List ℚ) (a : ℚ), a ≤ l.foldl max a := by
  intro l
  induction l with
  | nil => intro a; exact le_refl a
  | cons b l ih => intro a; exact le_trans (le_max_left a b) (ih (max a b))

lemma mem_le_foldl_max (l : List ℚ) (v : ℚ) (hv : v ∈ l) :
    ∀ a, v ≤ l.foldl max a := by
  induction l with
  | nil => cases hv
  | cons b l ih =>
    intro a
    rcases List.mem_cons.mp hv with h | h
    · subst h; exact le_trans (le_max_right a v) (left_le_foldl_max l (max a v))
    · exact ih h (max a b)

lemma foldl_min_le_left : ∀ (l : List ℚ) (a : ℚ), l.foldl min a ≤ a := by
  intro l
  induction l with
  | nil => intro a; exact le_refl a
  | cons b l ih => intro a; exact le_trans (ih (min a b)) (min_le_left a b)

lemma foldl_min_le_mem (l : List ℚ) (v : ℚ) (hv : v ∈ l) :
    ∀ a, l.foldl min a ≤ v := by
  induction l with
  | nil => cases hv
  | cons b l ih =>
    intro a
    rcases List.mem_cons.mp hv with h | h
    · subst h; exact le_trans (foldl_min_le_left l (min a v)) (min_le_right a v)
    · exact ih h (min a b)

/-- If the magnitude-maximal value of a list is `0`, every element is `0`. -/
lemma absMaxOf_eq_zero (l : List ℚ) (h : absMaxOf l = 0) : ∀ v ∈ l, v = 0 := by
  intro v hv
  unfold absMaxOf at h
  set mx := l.foldl max (l.headD 0) with hmx
  set mn := l.foldl min (l.headD 0) with hmn
  by_cases hc : |mx| < |mn|
  · rw [if_pos hc] at h
    rw [h] at hc
    simp only [abs_zero] at hc
    exact absurd hc (not_lt.mpr (abs_nonneg mx))
  · rw [if_neg hc] at h
    have hmn0 : mn = 0 := by
      have : |mn| ≤ |mx| := not_lt.mp hc
      rw [h] at this
      simp only [abs_zero] at this
      exact abs_eq_zero.mp (le_antisymm this (abs_nonneg mn))
    have h1 : v ≤ mx := mem_le_foldl_max l v hv _
    have h2 : mn ≤ v := foldl_min_le_mem l v hv _
    rw [h] at h1
    rw [hmn0] at h2
    exact le_antisymm h1 h2

/-- C10: when the magnitude-maximal interpolated value is exactly `0`,
`get_scalars` returns `(0, 1, 1)`, `encode_channel` never fails, every
encoded value is `0`, and de-quantizing returns each original value
exactly. -/
theorem encode_allZero (ch : Channel) (vs : List ℚ)
    (henc : ch.data.v_enc = none) (hint : ch.data.v_int = some vs)
    (h0 : absMaxOf vs = 0) :
    get_scalars (absMaxOf vs) = .ok (0, 1, 1) ∧
    (encode_channel ch).2 = none ∧
    (encode_channel ch).1.shift = 0 ∧
    (encode_channel ch).1.scalar = 1 ∧
    (encode_channel ch).1.divisor = 1 ∧
    (encode_channel ch).1.data.v_enc = some (vs.map (encodeValue 0 1 1)) ∧
    ∀ v ∈ vs, encodeValue 0 1 1 v = 0 ∧ dequantize 0 1 1 (encodeValue 0 1 1 v) = v := by
  have hok : get_scalars (absMaxOf vs) = .ok (0, 1, 1) := by
    rw [h0]; rfl
  have hvz : ∀ v ∈ vs, v = 0 := absMaxOf_eq_zero vs h0
  have henc0 : ∀ v ∈ vs, encodeValue 0 1 1 v = 0 ∧
      dequantize 0 1 1 (encodeValue 0 1 1 v) = v := by
    intro v hv
    rw [hvz v hv]
    exact ⟨by decide, by decide⟩
  have hch : encode_channel ch =
      ({ ch with
          shift := 0,
          scalar := 1,
          divisor := 1,
          data := { ch.data with v_enc := some (vs.map (encodeValue 0 1 1)) } },
       none) := by
    simp only [encode_channel, henc, hint, hok]
  rw [hch]
  exact ⟨hok, rfl, rfl, rfl, rfl, rfl, henc0⟩

/-- The registry entry used by the concrete test inputs below: a one-byte
unsigned payload decoded as its numeric value. -/
def testParam : Param := ⟨"p", "u", 1, fun l => (beNat l : ℚ)⟩

/-- A channel record holding only interpolated values, as `encode_channel`
receives it. -/
def testChannel (vs : List ℚ) : Channel :=
  { initChannel 1 testParam with
      data := { (initChannel 1 testParam).data with v_int := some vs } }

/-- C10 witness: the all-zero channel `[0, 0]` hits the hypotheses and the
conclusion concretely. -/
theorem encode_allZero_witness :
    (testChannel [0, 0]).data.v_enc = none ∧
    (testChannel [0, 0]).data.v_int = some [0, 0] ∧
    absMaxOf [0, 0] = 0 ∧
    ((encode_channel (testChannel [0, 0])).2 = none ∧
      (encode_channel (testChannel [0, 0])).1.scalar = 1) := by
  refine ⟨rfl, rfl, by decide, ?_⟩
  have h := encode_allZero (testChannel [0, 0]) [0, 0] rfl rfl (by decide)
  exact ⟨h.2.1, h.2.2.2.1⟩

/-! ### Bounds of `limit_denominator` and `get_scalars` (C5) -/

lemma mkFrac_den_le (p q B : ℤ) (hq1 : 1 ≤ q) (hqB : q ≤ B) :
    ((mkFrac p q).den : ℤ) ≤ B := by
  have hfrac : mkFrac p q = Rat.divInt p q := (Rat.divInt_eq_div p q).symm
  have hdvd : ((Rat.divInt p q).den : ℤ) ∣ q := Rat.den_dvd p q
  have hle : ((Rat.divInt p q).den : ℤ) ≤ q :=
    Int.le_of_dvd (lt_of_lt_of_le zero_lt_one hq1) hdvd
  rw [hfrac]
  exact le_trans hle hqB

lemma limitDenLoop_den_le (D : ℤ) :
    ∀ (fuel : ℕ) (p0 q0 p1 q1 n d : ℤ),
      0 ≤ q0 → q0 ≤ 32767 → 1 ≤ q1 → q1 ≤ 32767 → 0 ≤ d → d < n →
      ((limitDenLoop D fuel p0 q0 p1 q1 n d).den : ℤ) ≤ 32767 := by
  intro fuel
  induction fuel with
  | zero =>
    intro p0 q0 p1 q1 n d _ _ hq11 hq1B _ _
    exact mkFrac_den_le p1 q1 32767 hq11 hq1B
  | succ fuel ih =>
    intro p0 q0 p1 q1 n d hq00 hq0B hq11 hq1B hd0 hdn
    simp only [limitDenLoop]
    by_cases hd : d = 0
    · rw [if_pos hd]
      exact mkFrac_den_le p1 q1 32767 hq11 hq1B
    · rw [if_neg hd]
      have hdpos : 0 < d := lt_of_le_of_ne hd0 (Ne.symm hd)
      have hfd : Int.fdiv n d = n / d := Int.fdiv_eq_ediv n hd0
      have ha1 : 1 ≤ Int.fdiv n d := by
        rw [hfd]
        exact (Int.le_ediv_iff_mul_le hdpos).mpr (by linarith)
      have hq21 : 1 ≤ q0 + Int.fdiv n d * q1 := by
        have : q1 ≤ Int.fdiv n d * q1 := by
          calc q1 = 1 * q1 := (one_mul q1).symm
          _ ≤ Int.fdiv n d * q1 := by
            exact mul_le_mul_of_nonneg_right ha1 (by linarith)
        linarith
      by_cases hq2 : 32767 < q0 + Int.fdiv n d * q1
      · rw [if_pos hq2]
        have hkfd : Int.fdiv (32767 - q0) q1 = (32767 - q0) / q1 :=
          Int.fdiv_eq_ediv _ (by linarith)
        have hk0 : 0 ≤ Int.fdiv (32767 - q0) q1 :=
          Int.fdiv_nonneg (by linarith) (by linarith)
        have hqkB : q0 + Int.fdiv (32767 - q0) q1 * q1 ≤ 32767 := by
          have := Int.ediv_mul_le (32767 - q0) (show q1 ≠ 0 by linarith)
          rw [hkfd]
          linarith
        have hqk1 : 1 ≤ q0 + Int.fdiv (32767 - q0) q1 * q1 := by
          rcases eq_or_lt_of_le hq00 with hq0z | hq0p
          · have hk1 : 1 ≤ Int.fdiv (32767 - q0) q1 := by
              rw [hkfd, ← hq0z, sub_zero]
              exact (Int.le_ediv_iff_mul_le (by linarith)).mpr (by linarith)
            have : 1 * 1 ≤ Int.fdiv (32767 - q0) q1 * q1 :=
              mul_le_mul hk1 hq11 zero_le_one (by linarith)
            linarith
          · have : 0 ≤ Int.fdiv (32767 - q0) q1 * q1 :=
              mul_nonneg hk0 (by linarith)
            linarith
        by_cases hcmp : 2 * d * (q0 + Int.fdiv (32767 - q0) q1 * q1) ≤ D
        · rw [if_pos hcmp]
          exact mkFrac_den_le p1 q1 32767 hq11 hq1B
        · rw [if_neg hcmp]
          exact mkFrac_den_le _ _ 32767 hqk1 hqkB
      · rw [if_neg hq2]
        apply ih
        · linarith
        · exact hq1B
        · exact hq21
        · linarith
        · have : n - Int.fdiv n d * d = n % d := by
            rw [hfd]
            have := Int.ediv_add_emod' n d
            linarith
          rw [this]
          exact Int.emod_nonneg n hd
        · have : n - Int.fdiv n d * d = n % d := by
            rw [hfd]
            have := Int.ediv_add_emod' n d
            linarith
          rw [this]
          exact Int.emod_lt_of_pos n hdpos

/-- The denominator returned by `limit_denominator` never exceeds the
`2^15 - 1` bound it is called with. -/
lemma limit_denominator_den_le (x : ℚ) :
    ((limit_denominator x).den : ℤ) ≤ 32767 := by
  unfold limit_denominator
  by_cases h : (x.den : ℤ) ≤ 32767
  · rw [if_pos h]
    exact h
  · rw [if_neg h]
    have hdpos : (0 : ℤ) < (x.den : ℤ) := by
      have : (32767 : ℤ) < (x.den : ℤ) := lt_of_not_le h
      linarith
    have hfd : Int.fdiv x.num (x.den : ℤ) = x.num / (x.den : ℤ) :=
      Int.fdiv_eq_ediv x.num (le_of_lt hdpos)
    have hrem : x.num - Int.fdiv x.num (x.den : ℤ) * (x.den : ℤ)
        = x.num % (x.den : ℤ) := by
      rw [hfd]
      have := Int.ediv_add_emod' x.num (x.den : ℤ)
      linarith
    apply limitDenLoop_den_le
    · exact le_refl 0
    · norm_num
    · exact le_refl 1
    · norm_num
    · rw [hrem]
      exact Int.emod_nonneg x.num (by linarith)
    · rw [hrem]
      exact Int.emod_lt_of_pos x.num hdpos

lemma pyRound_intCast (n : ℤ) : pyRound ((n : ℤ) : ℚ) = n := by
  unfold pyRound
  rw [Int.floor_intCast]
  norm_num

/-- On the adjustment path the recomputed scalar
`round(scalar * ((2^15-1)/scalar))` is exactly `2^15 - 1`. -/
lemma pyRound_adjusted_scalar (sc : ℤ) (hsc : sc ≠ 0) :
    pyRound ((sc : ℚ) * ((2 ^ 15 - 1 : ℚ) / (sc : ℚ))) = 32767 := by
  have hsc' : (sc : ℚ) ≠ 0 := Int.cast_ne_zero.mpr hsc
  have : (sc : ℚ) * ((2 ^ 15 - 1 : ℚ) / (sc : ℚ)) = (2 ^ 15 - 1 : ℚ) := by
    rw [mul_comm]
    exact div_mul_cancel₀ _ hsc'
  rw [this]
  have h2 : ((2 : ℚ) ^ 15 - 1) = ((32767 : ℤ) : ℚ) := by norm_num
  rw [h2, pyRound_intCast]

lemma getScalarsGo_bounds (a : ℚ) :
    ∀ (l : List ℤ) (sh sc dv : ℤ), getScalarsGo a l = .ok (sh, sc, dv) →
      sc ≠ 0 ∧ -2 ^ 15 ≤ sc ∧ sc ≤ 2 ^ 15 - 1 ∧
      dv ≠ 0 ∧ -2 ^ 15 ≤ dv ∧ dv ≤ 2 ^ 15 - 1 := by
  intro l
  induction l with
  | nil =>
    intro sh sc dv h
    exact absurd h (by simp [getScalarsGo])
  | cons s rest ih =>
    intro sh sc dv h
    simp only [getScalarsGo] at h
    by_cases h0 : (limit_denominator (a / (2 ^ 15 - 1) / (10 : ℚ) ^ (-s))).num = 0
    · rw [if_pos h0] at h
      exact ih sh sc dv h
    · rw [if_neg h0] at h
      set f := limit_denominator (a / (2 ^ 15 - 1) / (10 : ℚ) ^ (-s)) with hf
      by_cases h1 : -2 ^ 15 ≤ f.num ∧ f.num ≤ 2 ^ 15 - 1
      · rw [if_pos h1] at h
        have hinj := h
        rw [Except.ok.injEq, Prod.mk.injEq, Prod.mk.injEq] at hinj
        obtain ⟨hsh, hsc, hdv⟩ := hinj
        refine ⟨?_, ?_, ?_, ?_, ?_, ?_⟩
        · rw [← hsc]; exact h0
        · rw [← hsc]; exact h1.1
        · rw [← hsc]; exact h1.2
        · rw [← hdv]
          have : (0 : ℤ) < (f.den : ℤ) := Int.ofNat_pos.mpr f.pos
          exact ne_of_gt this
        · rw [← hdv]
          have : (0 : ℤ) ≤ (f.den : ℤ) := Int.ofNat_nonneg f.den
          linarith
        · rw [← hdv]
          have := limit_denominator_den_le (a / (2 ^ 15 - 1) / (10 : ℚ) ^ (-s))
          rw [← hf] at this
          linarith
      · rw [if_neg h1] at h
        by_cases h2 : (-2 ^ 15 ≤ pyRound (((f.den : ℤ) : ℚ) * ((2 ^ 15 - 1 : ℚ) / (f.num : ℚ))) ∧
              pyRound (((f.den : ℤ) : ℚ) * ((2 ^ 15 - 1 : ℚ) / (f.num : ℚ))) ≤ 2 ^ 15 - 1) ∧
            pyRound (((f.den : ℤ) : ℚ) * ((2 ^ 15 - 1 : ℚ) / (f.num : ℚ))) ≠ 0
        · rw [if_pos h2] at h
          by_cases h3 : a / (10 : ℚ) ^ (-s) /
                (pyRound ((f.num : ℚ) * ((2 ^ 15 - 1 : ℚ) / (f.num : ℚ))) : ℚ) *
                (pyRound (((f.den : ℤ) : ℚ) * ((2 ^ 15 - 1 : ℚ) / (f.num : ℚ))) : ℚ) ≤ 2 ^ 15 - 1 ∧
              ((pyRound ((f.num : ℚ) * ((2 ^ 15 - 1 : ℚ) / (f.num : ℚ))) : ℚ) /
                    (pyRound (((f.den : ℤ) : ℚ) * ((2 ^ 15 - 1 : ℚ) / (f.num : ℚ))) : ℚ) -
                  a / (2 ^ 15 - 1) / (10 : ℚ) ^ (-s)) /
                (a / (2 ^ 15 - 1) / (10 : ℚ) ^ (-s)) ≤ 1 / 10
          · rw [if_pos h3] at h
            have hinj := h
            rw [Except.ok.injEq, Prod.mk.injEq, Prod.mk.injEq] at hinj
            obtain ⟨hsh, hsc, hdv⟩ := hinj
            have hscval : sc = 32767 := by
              rw [← hsc, pyRound_adjusted_scalar f.num h0]
            refine ⟨?_, ?_, ?_, ?_, ?_, ?_⟩
            · rw [hscval]; norm_num
            · rw [hscval]; norm_num
            · rw [hscval]; norm_num
            · rw [← hdv]; exact h2.2
            · rw [← hdv]; exact h2.1.1
            · rw [← hdv]; exact h2.1.2
          · rw [if_neg h3] at h
            exact ih sh sc dv h
        · rw [if_neg h2] at h
          exact ih sh sc dv h

/-- C5 (amended): whenever `get_scalars` succeeds, the scalar and the
divisor are nonzero and lie within the signed 16-bit range
`[-2^15, 2^15 - 1]` (not within `±2047` as the claim states). -/
theorem get_scalars_fit_s16 (a : ℚ) (sh sc dv : ℤ)
    (h : get_scalars a = .ok (sh, sc, dv)) :
    sc ≠ 0 ∧ -2 ^ 15 ≤ sc ∧ sc ≤ 2 ^ 15 - 1 ∧
    dv ≠ 0 ∧ -2 ^ 15 ≤ dv ∧ dv ≤ 2 ^ 15 - 1 := by
  unfold get_scalars at h
  by_cases ha : a = 0
  · rw [if_pos ha] at h
    rw [Except.ok.injEq, Prod.mk.injEq, Prod.mk.injEq] at h
    obtain ⟨_, hsc, hdv⟩ := h
    rw [← hsc, ← hdv]
    norm_num
  · rw [if_neg ha] at h
    exact getScalarsGo_bounds a _ sh sc dv h

/-- C5: counterexample — quantizing `abs_max = 1` succeeds with
`scalar = 32767`, whose magnitude exceeds the claimed bound `2047`. -/
theorem get_scalars_exceeds_2047 :
    get_scalars 1 = .ok (9, 32767, 1) ∧ ¬((32767 : ℤ) ≤ 2047) := by
  exact ⟨by rfl, by norm_num⟩

/-- C5 witness: the amended bound instantiated at `abs_max = 1`. -/
theorem get_scalars_fit_s16_witness :
    get_scalars 1 = .ok (9, 32767, 1) ∧
    ((32767 : ℤ) ≠ 0 ∧ -2 ^ 15 ≤ (32767 : ℤ) ∧ (32767 : ℤ) ≤ 2 ^ 15 - 1 ∧
      (1 : ℤ) ≠ 0 ∧ -2 ^ 15 ≤ (1 : ℤ) ∧ (1 : ℤ) ≤ 2 ^ 15 - 1) :=
  ⟨by rfl, get_scalars_fit_s16 1 9 32767 1 (by rfl)⟩

/-! ### Quantisation round trip (C8) and failure handling (C4) -/

lemma ratTrunc_sub_lt (q : ℚ) : |((ratTrunc q : ℤ) : ℚ) - q| < 1 := by
  unfold ratTrunc
  by_cases h : 0 ≤ q
  · rw [if_pos h]
    have h1 : ((⌊q⌋ : ℤ) : ℚ) ≤ q := Int.floor_le q
    have h2 : q - 1 < ((⌊q⌋ : ℤ) : ℚ) := Int.sub_one_lt_floor q
    rw [abs_of_nonpos (by linarith)]
    linarith
  · rw [if_neg h]
    have h1 : q ≤ ((⌈q⌉ : ℤ) : ℚ) := Int.le_ceil q
    have h2 : ((⌈q⌉ : ℤ) : ℚ) < q + 1 := Int.ceil_lt_add_one q
    rw [abs_of_nonneg (by linarith)]
    linarith

lemma toInt16_eq_self (n : ℤ) (h1 : -32768 ≤ n) (h2 : n ≤ 32767) :
    toInt16 n = n := by
  unfold toInt16
  have : (n + 32768) % 65536 = n + 32768 :=
    Int.emod_eq_of_lt (by linarith) (by linarith)
  rw [this]
  ring

/-- C8 (amended): when `get_scalars` succeeds and the real-valued encoding
of `v` truncates into the signed 16-bit range, the absolute round-trip
error is smaller than one quantisation step `|10^-shift * scalar / divisor|`.
The claimed 10 % relative bound does not hold (see the counterexample):
values smaller than one step decode to `0`, a 100 % relative error. -/
theorem encode_roundTrip_quantum (a : ℚ) (sh sc dv : ℤ) (v : ℚ)
    (h : get_scalars a = .ok (sh, sc, dv))
    (hlo : -32768 ≤ ratTrunc (v / (10 : ℚ) ^ (-sh) / (sc : ℚ) * (dv : ℚ)))
    (hhi : ratTrunc (v / (10 : ℚ) ^ (-sh) / (sc : ℚ) * (dv : ℚ)) ≤ 32767) :
    |dequantize sh sc dv (encodeValue sh sc dv v) - v| <
      |(10 : ℚ) ^ (-sh) * (sc : ℚ) / (dv : ℚ)| := by
  obtain ⟨hsc, _, _, hdv, _, _⟩ := get_scalars_fit_s16 a sh sc dv h
  have hscQ : (sc : ℚ) ≠ 0 := Int.cast_ne_zero.mpr hsc
  have hdvQ : (dv : ℚ) ≠ 0 := Int.cast_ne_zero.mpr hdv
  have hpow : (10 : ℚ) ^ (-sh) ≠ 0 := zpow_ne_zero _ (by norm_num)
  set e := v / (10 : ℚ) ^ (-sh) / (sc : ℚ) * (dv : ℚ) with he
  set Q := (10 : ℚ) ^ (-sh) * (sc : ℚ) / (dv : ℚ) with hQ
  have hQne : Q ≠ 0 := by
    rw [hQ]
    exact div_ne_zero (mul_ne_zero hpow hscQ) hdvQ
  have hv : e * Q = v := by
    rw [he, hQ]
    field_simp
    ring
  have henc : encodeValue sh sc dv v = ratTrunc e := by
    unfold encodeValue
    rw [← he, toInt16_eq_self _ hlo hhi]
  have hdec : dequantize sh sc dv (ratTrunc e) = ((ratTrunc e : ℤ) : ℚ) * Q := by
    unfold dequantize
    rw [hQ]
    ring
  rw [henc, hdec, ← hv, ← sub_mul, abs_mul]
  have hlt : |((ratTrunc e : ℤ) : ℚ) - e| < 1 := ratTrunc_sub_lt e
  have hQpos : 0 < |Q| := abs_pos.mpr hQne
  calc |((ratTrunc e : ℤ) : ℚ) - e| * |Q| < 1 * |Q| :=
        mul_lt_mul_of_pos_right hlt hQpos
  _ = |Q| := one_mul _

/-- C8: counterexample — on the channel with interpolated values
`[1, 10^-5]` quantisation succeeds with `(shift, scalar, divisor) =
(9, 32767, 1)`, the value `10^-5` encodes to `0`, and the de-quantised
value `0` has relative error `1 > 10 %` against the original. -/
theorem encode_relative_error_exceeds_tolerance :
    (encode_channel (testChannel [1, 1/100000])).2 = none ∧
    (encode_channel (testChannel [1, 1/100000])).1.data.v_enc = some [30518, 0] ∧
    (1 : ℚ)/10 < |dequantize 9 32767 1 0 - 1/100000| / |(1/100000 : ℚ)| := by
  refine ⟨by rfl, by rfl, ?_⟩
  have h0 : dequantize 9 32767 1 0 = 0 := by
    unfold dequantize
    norm_num
  rw [h0]
  norm_num

/-- C8 witness: the amended bound at `abs_max = 1`, `v = 1`. -/
theorem encode_roundTrip_quantum_witness :
    get_scalars 1 = .ok (9, 32767, 1) ∧
    -32768 ≤ ratTrunc ((1 : ℚ) / (10 : ℚ) ^ (-(9 : ℤ)) / ((32767 : ℤ) : ℚ) * ((1 : ℤ) : ℚ)) ∧
    ratTrunc ((1 : ℚ) / (10 : ℚ) ^ (-(9 : ℤ)) / ((32767 : ℤ) : ℚ) * ((1 : ℤ) : ℚ)) ≤ 32767 ∧
    |dequantize 9 32767 1 (encodeValue 9 32767 1 1) - 1| <
      |(10 : ℚ) ^ (-(9 : ℤ)) * ((32767 : ℤ) : ℚ) / ((1 : ℤ) : ℚ)| :=
  ⟨by rfl, by decide, by decide,
    encode_roundTrip_quantum 1 9 32767 1 1 (by rfl) (by decide) (by decide)⟩

/-- C4 (amended): a `get_scalars` failure propagates out of
`encode_channel` as an uncaught exception — it is fatal to the caller,
not a silent exclusion from the quantised output — but it mutates
nothing: the channel (points, raw, interpolated data) is returned
untouched, and other channels are unaffected because `encode_channel`
only touches its argument. -/
theorem encode_failure_leaves_channel (ch : Channel) (vs : List ℚ) (e : String)
    (henc : ch.data.v_enc = none) (hint : ch.data.v_int = some vs)
    (herr : get_scalars (absMaxOf vs) = .error e) :
    encode_channel ch = (ch, some e) := by
  simp only [encode_channel, henc, hint, herr]

/-- C4: counterexample — on a channel whose interpolated values are
`[10^30]` the quantiser raises (`get_scalars` exhausts every shift), and
the exception escapes `encode_channel` instead of being recovered. -/
theorem encode_failure_raises :
    encode_channel (testChannel [10 ^ 30]) =
      (testChannel [10 ^ 30], some "failed to find scalars") := by rfl

/-- C4 witness: the amended statement at the concrete failing channel. -/
theorem encode_failure_leaves_channel_witness :
    (testChannel [10 ^ 30]).data.v_enc = none ∧
    (testChannel [10 ^ 30]).data.v_int = some [10 ^ 30] ∧
    get_scalars (absMaxOf [10 ^ 30]) = .error "failed to find scalars" ∧
    encode_channel (testChannel [10 ^ 30]) =
      (testChannel [10 ^ 30], some "failed to find scalars") :=
  ⟨rfl, rfl, by rfl,
    encode_failure_leaves_channel (testChannel [10 ^ 30]) [10 ^ 30]
      "failed to find scalars" rfl rfl (by rfl)⟩

/-! ### Channel retention in `parse` (C7) -/

lemma addPointTo_ok (chans chans' : List (ℕ × Channel)) (id ts : ℕ) (v : ℚ)
    (h : addPointTo chans id ts v = .ok chans') :
    chans'.map Prod.fst = chans.map Prod.fst ∧
    ∀ p ∈ chans', ∃ q ∈ chans, p.1 = q.1 ∧ p.2.data = q.2.data := by
  unfold addPointTo at h
  by_cases hl : (chans.lookup id).isSome
  · rw [if_pos hl] at h
    rw [Except.ok.injEq] at h
    subst h
    constructor
    · rw [List.map_map]
      apply List.map_congr_left
      intro jc _
      by_cases hj : jc.1 = id
      · simp [hj]
      · simp [hj]
    · intro p hp
      rw [List.mem_map] at hp
      obtain ⟨q, hq, hpq⟩ := hp
      refine ⟨q, hq, ?_⟩
      by_cases hj : q.1 = id
      · rw [← hpq]
        simp [hj]
      · rw [← hpq]
        simp [hj]
  · rw [if_neg hl] at h
    cases h

lemma decodeLoop_ok (params : List (ℕ × Param)) (parts : List (List ℕ)) :
    ∀ (chans : List (ℕ × Channel)) (errs : ℕ) (chans' : List (ℕ × Channel))
      (errs' : ℕ), decodeLoop params chans errs parts = .ok (chans', errs') →
      chans'.map Prod.fst = chans.map Prod.fst ∧
      ∀ p ∈ chans', ∃ q ∈ chans, p.1 = q.1 ∧ p.2.data = q.2.data := by
  induction parts with
  | nil =>
    intro chans errs chans' errs' h
    rw [decodeLoop, Except.ok.injEq, Prod.mk.injEq] at h
    rw [← h.1]
    exact ⟨rfl, fun p hp => ⟨p, hp, rfl, rfl⟩⟩
  | cons part rest ih =>
    intro chans errs chans' errs' h
    rw [decodeLoop] at h
    split at h
    · cases h
    · rename_i heq
      split at h
      · cases h
      · rename_i chans1 hadd
        obtain ⟨hf1, hd1⟩ := addPointTo_ok chans chans1 _ _ _ hadd
        obtain ⟨hf2, hd2⟩ := ih chans1 errs chans' errs' h
        refine ⟨hf2.trans hf1, ?_⟩
        intro p hp
        obtain ⟨q, hq, hpq1, hpq2⟩ := hd2 p hp
        obtain ⟨r, hr, hqr1, hqr2⟩ := hd1 q hq
        exact ⟨r, hr, hpq1.trans hqr1, hpq2.trans hqr2⟩
    · exact ih chans (errs + 1) chans' errs' h

lemma interpChannel_ok_points (ch ch' : Channel)
    (h : interpChannel ch = .ok ch') :
    ch'.points = ch.points ∧ (ch.points = [] → ch' = ch) := by
  unfold interpChannel at h
  by_cases hp : ch.points = []
  · rw [if_pos hp] at h
    rw [Except.ok.injEq] at h
    subst h
    exact ⟨rfl, fun _ => rfl⟩
  · rw [if_neg hp] at h
    dsimp only at h
    split at h
    · cases h
    · rw [Except.ok.injEq] at h
      subst h
      exact ⟨rfl, fun habs => absurd habs hp⟩

lemma interpAll_ok (l : List (ℕ × Channel)) :
    ∀ l' : List (ℕ × Channel), interpAll l = .ok l' →
      l'.map Prod.fst = l.map Prod.fst ∧
      ∀ p ∈ l', ∃ q ∈ l, p.1 = q.1 ∧ interpChannel q.2 = .ok p.2 := by
  induction l with
  | nil =>
    intro l' h
    rw [interpAll, Except.ok.injEq] at h
    subst h
    exact ⟨rfl, fun p hp => absurd hp (List.not_mem_nil p)⟩
  | cons ic rest ih =>
    intro l' h
    rw [interpAll] at h
    split at h
    · cases h
    · rename_i ch' hch
      split at h
      · cases h
      · rename_i rest' hrest
        rw [Except.ok.injEq] at h
        subst h
        obtain ⟨hf, hm⟩ := ih rest' hrest
        constructor
        · simp only [List.map_cons, hf]
        · intro p hp
          rcases List.mem_cons.mp hp with hp1 | hp2
          · subst hp1
            exact ⟨ic, List.mem_cons_self ic rest, rfl, hch⟩
          · obtain ⟨q, hq, h1, h2⟩ := hm p hp2
            exact ⟨q, List.mem_cons_of_mem ic hq, h1, h2⟩

/-- C7 (amended): channels that received zero decoded samples are *not*
removed from the mapping `parse` returns — every registry id stays a key —
they are merely skipped by the interpolation pass, so their `t_int` and
`v_int` fields are still unset (`None`). -/
theorem parse_keeps_all_registry_ids (bytes : List ℕ)
    (params : List (ℕ × Param)) (m : List (ℕ × Channel))
    (h : parse bytes params = .ok m) :
    m.map Prod.fst = params.map Prod.fst ∧
    ∀ ic ∈ m, ic.2.points = [] →
      ic.2.data.t_int = none ∧ ic.2.data.v_int = none := by
  unfold parse at h
  dsimp only at h
  rcases hdp : decode_packets bytes
      (params.map fun ip => (ip.1, initChannel ip.1 ip.2)) params with e | res
  · rw [hdp] at h
    cases h
  · rw [hdp] at h
    obtain ⟨cl, np, ne⟩ := res
    unfold decode_packets at hdp
    dsimp only at hdp
    rcases hdl : decodeLoop params
        (params.map fun ip => (ip.1, initChannel ip.1 ip.2)) 0
        (splitOnByte START bytes) with e2 | res2
    · rw [hdl] at hdp
      cases hdp
    · rw [hdl] at hdp
      obtain ⟨cl2, el2⟩ := res2
      rw [Except.ok.injEq, Prod.mk.injEq] at hdp
      obtain ⟨hcl2, -⟩ := hdp
      subst hcl2
      obtain ⟨hf1, hd1⟩ := decodeLoop_ok params _ _ 0 cl2 el2 hdl
      obtain ⟨hf2, hd2⟩ := interpAll_ok cl2 m h
      have hinit : (params.map (fun ip => (ip.1, initChannel ip.1 ip.2))).map
          Prod.fst = params.map Prod.fst := by
        rw [List.map_map]
        rfl
      refine ⟨hf2.trans (hf1.trans hinit), ?_⟩
      intro ic hic hpts
      obtain ⟨q, hq, -, hinterp⟩ := hd2 ic hic
      obtain ⟨hqpts, hqeq⟩ := interpChannel_ok_points q.2 ic.2 hinterp
      have hqempty : q.2.points = [] := by
        rw [← hqpts]
        exact hpts
      have hiceq : ic.2 = q.2 := hqeq hqempty
      obtain ⟨r, hr, -, hdata⟩ := hd1 q hq
      rw [List.mem_map] at hr
      obtain ⟨ip, -, hip⟩ := hr
      have hrdata : r.2.data.t_int = none ∧ r.2.data.v_int = none := by
        rw [← hip]
        exact ⟨rfl, rfl⟩
      rw [hiceq, hdata]
      exact hrdata

/-- C7: counterexample — with one registered id and an empty byte buffer
the channel for id `1` decodes zero samples, yet `parse` still returns it
in the mapping (the claim says it would be removed). -/
theorem parse_keeps_zero_sample_channel :
    parse [] [(1, testParam)] = .ok [(1, initChannel 1 testParam)] ∧
    (initChannel 1 testParam).points = [] := by
  exact ⟨by rfl, rfl⟩

/-- C7 witness: the amended statement at the empty-buffer input. -/
theorem parse_keeps_all_registry_ids_witness :
    parse [] [(1, testParam)] = .ok [(1, initChannel 1 testParam)] ∧
    (([(1, initChannel 1 testParam)] : List (ℕ × Channel)).map Prod.fst =
        ([(1, testParam)] : List (ℕ × Param)).map Prod.fst ∧
      ∀ ic ∈ ([(1, initChannel 1 testParam)] : List (ℕ × Channel)),
        ic.2.points = [] → ic.2.data.t_int = none ∧ ic.2.data.v_int = none) :=
  ⟨by rfl, parse_keeps_all_registry_ids [] [(1, testParam)]
    [(1, initChannel 1 testParam)] (by rfl)⟩

/-! ### Structure of the resampling grid (C3, C9) -/

lemma insertPoint_length (p : ℕ × ℚ) (l : List (ℕ × ℚ)) :
    (insertPoint p l).length = l.length + 1 := by
  induction l with
  | nil => rfl
  | cons q rest ih =>
    rw [insertPoint]
    by_cases h : q.1 ≤ p.1
    · rw [if_pos h]
      simp [ih]
    · rw [if_neg h]
      simp

lemma sortPoints_length (pts : List (ℕ × ℚ)) :
    (sortPoints pts).length = pts.length := by
  suffices h : ∀ acc : List (ℕ × ℚ),
      (pts.foldl (fun acc p => insertPoint p acc) acc).length =
        acc.length + pts.length by
    have := h []
    simpa [sortPoints] using this
  induction pts with
  | nil => intro acc; simp
  | cons p rest ih =>
    intro acc
    simp only [List.foldl_cons]
    rw [ih (insertPoint p acc), insertPoint_length]
    simp only [List.length_cons]
    omega

lemma linspace_length (stop : ℚ) (num : ℕ) (h2 : 2 ≤ num) :
    (linspace stop num).length = num := by
  unfold linspace
  rw [if_neg (by omega)]
  simp

/-- For `num ≥ 2` the grid is exactly the list of the first `num`
consecutive multiples of the constant step `stop / (num - 1)`. -/
lemma linspace_eq_multiples (stop : ℚ) (num : ℕ) (h2 : 2 ≤ num) :
    linspace stop num =
      (List.range num).map (fun i : ℕ => (stop / ((num : ℚ) - 1)) * i) := by
  unfold linspace
  rw [if_neg (by omega)]
  apply List.map_congr_left
  intro i _
  rw [div_mul_eq_mul_div, mul_comm stop (i : ℚ), mul_comm ((i : ℚ)) stop]

lemma linspace_chain' (stop : ℚ) (num : ℕ) (hT : 0 < stop) (h2 : 2 ≤ num) :
    List.Chain' (· < ·) (linspace stop num) := by
  rw [linspace_eq_multiples stop num h2]
  rw [List.chain'_map]
  have hd : (0 : ℚ) < (num : ℚ) - 1 := by
    have : (2 : ℚ) ≤ (num : ℚ) := by exact_mod_cast h2
    linarith
  have hstep : 0 < stop / ((num : ℚ) - 1) := div_pos hT hd
  obtain ⟨m, rfl⟩ : ∃ m, num = m + 1 := ⟨num - 1, by omega⟩
  rw [List.chain'_range_succ]
  intro i _
  have hi : ((i : ℚ)) < ((i + 1 : ℕ) : ℚ) := by exact_mod_cast Nat.lt_succ_self i
  exact mul_lt_mul_of_pos_left hi hstep

lemma linspace_getLastD (stop : ℚ) (num : ℕ) (h2 : 2 ≤ num) :
    (linspace stop num).getLastD 0 = stop := by
  obtain ⟨m, rfl⟩ : ∃ m, num = m + 1 := ⟨num - 1, by omega⟩
  have hm : 1 ≤ m := by omega
  unfold linspace
  rw [if_neg (by omega), List.range_succ, List.map_append]
  simp only [List.map_cons, List.map_nil]
  rw [List.getLastD_concat]
  have hmQ : ((m : ℚ)) ≠ 0 := Nat.cast_ne_zero.mpr (by omega)
  have hcast : ((m + 1 : ℕ) : ℚ) - 1 = (m : ℚ) := by push_cast; ring
  rw [hcast, mul_div_assoc, div_self hmQ, mul_one]

/-- Success of the interpolation pass for a channel with at least two
points and a positive maximal timestamp, with the exact record it
computes. -/
lemma interpChannel_eq_of (ch : Channel) (h2 : 2 ≤ ch.points.length)
    (hT : 0 < tLastOf ch.points) :
    interpChannel ch = .ok { ch with
      sample_rate := pyRound ((ch.points.length : ℚ) /
        (((tLastOf ch.points : ℕ) : ℚ) / 1000)),
      data := { ch.data with
        t_raw := some ((sortPoints ch.points).map Prod.fst),
        v_raw := some ((sortPoints ch.points).map Prod.snd),
        t_int := some (linspace ((tLastOf ch.points : ℕ) : ℚ) ch.points.length),
        v_int := some ((linspace ((tLastOf ch.points : ℕ) : ℚ)
          ch.points.length).map (interpPts (sortPoints ch.points))) } } := by
  have hne : ch.points ≠ [] := by
    intro habs
    rw [habs] at h2
    exact absurd h2 (by decide)
  have hlen : ((sortPoints ch.points).map Prod.fst).length = ch.points.length := by
    rw [List.length_map, sortPoints_length]
  have hlast : ((sortPoints ch.points).map Prod.fst).getLastD 0 = tLastOf ch.points := rfl
  have hTQ : (0 : ℚ) < ((tLastOf ch.points : ℕ) : ℚ) := by exact_mod_cast hT
  unfold interpChannel
  rw [if_neg hne]
  dsimp only
  rw [hlast, hlen, linspace_getLastD _ _ h2, if_neg (ne_of_gt hTQ)]

/-- Channel with a regular 7 ms cadence, used to refute the claimed step
selection. -/
def ch3 : Channel :=
  { initChannel 1 testParam with points := [(0, 1), (7, 2), (14, 3), (21, 4)] }

/-- Channel with two samples and a positive last timestamp. -/
def ch4 : Channel :=
  { initChannel 1 testParam with points := [(0, 1), (1000, 2)] }

/-- C3 (amended): `parse` performs no step selection at all.  For a channel
with `n ≥ 2` points and a positive maximal timestamp the grid is
`numpy.linspace(0, t_last, n)`: the `n` consecutive multiples of the
constant step `t_last / (n - 1)` starting at `0`, and the derived
`sample_rate` is `round(n / (t_last / 1000))`. -/
theorem resample_grid_linspace_multiples (ch : Channel)
    (h2 : 2 ≤ ch.points.length) (hT : 0 < tLastOf ch.points) :
    ∃ ch', interpChannel ch = .ok ch' ∧
      ch'.data.t_int = some ((List.range ch.points.length).map
        (fun i : ℕ => (((tLastOf ch.points : ℕ) : ℚ) /
          ((ch.points.length : ℚ) - 1)) * i)) ∧
      ch'.sample_rate = pyRound ((ch.points.length : ℚ) /
        (((tLastOf ch.points : ℕ) : ℚ) / 1000)) := by
  refine ⟨_, interpChannel_eq_of ch h2 hT, ?_, rfl⟩
  dsimp only
  rw [linspace_eq_multiples _ _ h2]

/-- C3: counterexample — for timestamps `[0, 7, 14, 21]` the step the
specification describes (mode 7, capped, bumped to divide 1000) is 8 ms,
but the code's grid is `[0, 7, 14, 21]`, which is not the list of
consecutive multiples of 8. -/
theorem resample_step_not_spec_mode :
    (interpChannel ch3).toOption.bind (fun c => c.data.t_int) =
      some [0, 7, 14, 21] ∧
    specResampleStep [0, 7, 14, 21] = 8 ∧
    ¬([0, 7, 14, 21] : List ℚ) = (List.range 4).map
      (fun i : ℕ => ((specResampleStep [0, 7, 14, 21] : ℕ) : ℚ) * i) := by
  exact ⟨by rfl, by rfl, by decide⟩

/-- C3 witness: the amended statement at a concrete two-point channel. -/
theorem resample_grid_linspace_multiples_witness :
    2 ≤ ch4.points.length ∧ 0 < tLastOf ch4.points ∧
    (∃ ch', interpChannel ch4 = .ok ch' ∧
      ch'.data.t_int = some ((List.range ch4.points.length).map
        (fun i : ℕ => (((tLastOf ch4.points : ℕ) : ℚ) /
          ((ch4.points.length : ℚ) - 1)) * i)) ∧
      ch'.sample_rate = pyRound ((ch4.points.length : ℚ) /
        (((tLastOf ch4.points : ℕ) : ℚ) / 1000))) :=
  ⟨by decide, by decide,
    resample_grid_linspace_multiples ch4 (by decide) (by decide)⟩

/-- C9 (amended): for every channel with at least two samples and a
positive maximal timestamp, interpolation succeeds, the grid is strictly
increasing with the constant step `t_last / (n - 1)`, and the
interpolated value list has the same length as the grid.  (A channel with
one sample, or whose maximal timestamp is `0`, instead makes `parse`
raise through the `sample_rate` division — see the counterexample.) -/
theorem resample_grid_strictMono (ch : Channel)
    (h2 : 2 ≤ ch.points.length) (hT : 0 < tLastOf ch.points) :
    ∃ ch' g vs, interpChannel ch = .ok ch' ∧
      ch'.data.t_int = some g ∧ ch'.data.v_int = some vs ∧
      vs.length = g.length ∧ g.length = ch.points.length ∧
      List.Chain' (· < ·) g ∧
      g = (List.range ch.points.length).map
        (fun i : ℕ => (((tLastOf ch.points : ℕ) : ℚ) /
          ((ch.points.length : ℚ) - 1)) * i) := by
  have hTQ : (0 : ℚ) < ((tLastOf ch.points : ℕ) : ℚ) := by exact_mod_cast hT
  refine ⟨_, linspace ((tLastOf ch.points : ℕ) : ℚ) ch.points.length,
    (linspace ((tLastOf ch.points : ℕ) : ℚ) ch.points.length).map
      (interpPts (sortPoints ch.points)),
    interpChannel_eq_of ch h2 hT, rfl, rfl, List.length_map _ _,
    linspace_length _ _ h2, linspace_chain' _ _ hTQ h2,
    linspace_eq_multiples _ _ h2⟩

/-- C9: counterexample — a buffer holding one valid packet (timestamp 0,
id 1, payload `0x05`) yields a channel with one decoded sample, but
`parse` then aborts in the `sample_rate` computation (`t_int[-1]` is `0`,
the division yields infinity and `round` raises), so no grid satisfying
the claimed invariant is produced at all. -/
theorem parse_crashes_on_single_sample :
    parse [126, 0, 0, 0, 0, 0, 1, 5, 132] [(1, testParam)] =
      .error "OverflowError: cannot convert float infinity to integer" ∧
    (decode_packets [126, 0, 0, 0, 0, 0, 1, 5, 132]
        [(1, initChannel 1 testParam)] [(1, testParam)]).toOption.map
      (fun r => (r.1.lookup 1).map (fun c => c.points)) =
      some (some [(0, 5)]) := by
  exact ⟨by rfl, by rfl⟩

/-- C9 witness: the amended statement at a concrete two-point channel. -/
theorem resample_grid_strictMono_witness :
    2 ≤ ch4.points.length ∧ 0 < tLastOf ch4.points ∧
    (∃ ch' g vs, interpChannel ch4 = .ok ch' ∧
      ch'.data.t_int = some g ∧ ch'.data.v_int = some vs ∧
      vs.length = g.length ∧ g.length = ch4.points.length ∧
      List.Chain' (· < ·) g ∧
      g = (List.range ch4.points.length).map
        (fun i : ℕ => (((tLastOf ch4.points : ℕ) : ℚ) /
          ((ch4.points.length : ℚ) - 1)) * i)) :=
  ⟨by decide, by decide, resample_grid_strictMono ch4 (by decide) (by decide)⟩

/-! ### Decode-pass abort (C1) and the length check (C2) -/

set_option maxRecDepth 10000 in
/-- C1: the decode pass is not abort-free.  On the buffer `0x7E` followed
by 258 `0xFF` bytes the candidate's byte sum is `126 + 255·257 = 65661 ≥
2^16`, so `checksum`'s `(sum).to_bytes(2)` raises `OverflowError` and the
whole decode aborts instead of counting the packet — contradicting the
header comment "sum of bytes ignoring overflow". -/
theorem decode_aborts_on_checksum_overflow :
    decode_packets (126 :: List.replicate 258 255) [] [] =
      .error "OverflowError: int too big to convert" ∧
    parse (126 :: List.replicate 258 255) [] =
      .error "OverflowError: int too big to convert" := by
  exact ⟨by rfl, by rfl⟩

/-- C2: a candidate whose unescaped length is 8 (delimiter, timestamp, id,
*empty* payload, checksum) is not rejected as too short — the code tests
`len(p) < MIN_PACKET_LENGTH - 1` on the delimiter-inclusive packet — and
proceeds to checksum validation, although `MIN_PACKET_LENGTH` is 9. -/
theorem length8_candidate_reaches_checksum :
    classifyPacket [] [0, 0, 0, 0, 0, 1, 0] = .ok .badChecksum ∧
    (unescape (START :: [0, 0, 0, 0, 0, 1, 0])).length = 8 ∧
    8 < MIN_PACKET_LENGTH := by
  exact ⟨by rfl, by rfl, by decide⟩

end Gdat
